import Mathlib

/-!
Verification of the rover image-segmentation core of mranalyzer.

The Python source (mranalyzer/seg.py, mranalyzer/util.py) is shallowly
embedded: numpy 2-D arrays become lists of lists of rationals (intensities)
or integers (sigma buckets) or booleans (edge masks); the scipy primitives
are embedded by their documented contracts (distance_transform_edt gives the
Euclidean distance of every pixel to the nearest edge pixel,
KDTree.query_ball_point returns all indexed points within a closed Euclidean
ball).  Comparisons against Euclidean distances are expressed by squaring,
which avoids square roots while agreeing with the float comparisons of the
source on the exact values involved.
-/

namespace MRA

attribute [local semireducible] Rat.mul Rat.add Rat.sub Rat.inv

/-- A 2-D grid, the embedding of a numpy 2-D array. -/
abbrev Grid (α : Type) := List (List α)

/-- Grid element access with a default, the embedding of arr[i, j]. -/
def gget (g : Grid α) (d : α) (i j : ℕ) : α := (g.getD i []).getD j d

/-- Number of rows of the grid (first component of numpy shape). -/
def gridRows (g : Grid α) : ℕ := g.length

/-- Number of columns of the grid (second component of numpy shape). -/
def gridCols (g : Grid α) : ℕ := (g.headD []).length

/-- List of the row lengths; two grids have equal numpy shape iff their
rowLens agree (for rectangular grids). -/
def rowLens (g : Grid α) : List ℕ := g.map List.length

/-- Rectangularity: every row has the length of the first row.  numpy 2-D
arrays are rectangular by construction. -/
def Rect (g : Grid α) : Prop := ∀ row ∈ g, row.length = gridCols g

instance (g : Grid α) : Decidable (Rect g) := by
  unfold Rect; infer_instance

/-- Build a rows x cols grid from an entry function; the embedding of
allocating np.zeros((rows, cols)) and filling each entry. -/
def mkGrid (rows cols : ℕ) (f : ℕ → ℕ → α) : Grid α :=
  (List.range rows).map fun i => (List.range cols).map fun j => f i j

/-- Squared Euclidean distance between two pixel coordinates, as a rational. -/
def sqDistQ (p q : ℕ × ℕ) : ℚ := ((p.1 : ℚ) - q.1) ^ 2 + ((p.2 : ℚ) - q.2) ^ 2

/-- Euclidean distance comparison dist(p, q) <= r, expressed by squaring
(dist(p, q) is nonnegative, so dist <= r iff r >= 0 and sqDist <= r^2).
This embeds both the dt <= xydist test on the scipy distance transform and
the closed-ball membership test of KDTree.query_ball_point. -/
def distLE (p q : ℕ × ℕ) (r : ℚ) : Bool := decide (0 ≤ r ∧ sqDistQ p q ≤ r ^ 2)

/-- Row-major list of the coordinates of the true cells of the edge mask:
the embedding of list(zip(*np.nonzero(canny))). -/
def nonzeroIdxs (canny : Grid Bool) : List (ℕ × ℕ) :=
  (List.range canny.length).flatMap fun i =>
    ((List.range ((canny.getD i []).length)).filter
      fun j => (canny.getD i []).getD j false).map fun j => (i, j)

/-- The test dt[i, j] <= r where dt = distance_transform_edt(~canny): the
pixel (i, j) is within Euclidean distance r of some edge pixel. -/
def distanceFieldLE (canny : Grid Bool) (r : ℚ) (i j : ℕ) : Bool :=
  (nonzeroIdxs canny).any fun e => distLE (i, j) e r

/-- Squared-distance field as a grid over the shape of the edge mask: the
embedding of dt = distance_transform_edt(~canny) (none when the mask has no
true cell, where the library contract gives no finite distance). -/
def distanceFieldSq (canny : Grid Bool) : Grid (Option ℕ) :=
  (List.range canny.length).map fun i =>
    (List.range ((canny.getD i []).length)).map fun (j : ℕ) =>
      ((nonzeroIdxs canny).map fun e =>
        ((i : ℤ) - e.1).natAbs ^ 2 + ((j : ℤ) - e.2).natAbs ^ 2).min?

/-- The embedding of np.isclose(a, b, atol=0.1) with the default
rtol = 1e-05: |a - b| <= atol + rtol * |b|. -/
def isclose (a b : ℚ) : Bool := decide (|a - b| ≤ 1 / 10 + |b| / 100000)

/-- Sigma values of the edge pixels, index-aligned with nonzeroIdxs: the
embedding of ptVals = [sigmaMap.item(*x) for x in edgeIdxs]. -/
def edgeSigmaVals (canny : Grid Bool) (sigmaMap : Grid ℤ) : List ℤ :=
  (nonzeroIdxs canny).map fun e => gget sigmaMap 0 e.1 e.2

/-- Direct embedding of shares_std_val_within_dist from seg.py: query the
spatial index for the edge points within kdist of xy and report whether any
of them carries a sigma value np.isclose to the sigma value at xy. -/
def shares_std_val_within_dist (xy : ℕ × ℕ) (edgeIdxs : List (ℕ × ℕ))
    (ptVals : List ℤ) (sigmaMap : Grid ℤ) (kdist : ℚ) : Bool :=
  (edgeIdxs.zip ptVals).any fun ep =>
    distLE ep.1 xy kdist && isclose (ep.2 : ℚ) ((gget sigmaMap 0 xy.1 xy.2 : ℤ) : ℚ)

/-- The per-pixel decision of crop_rover: the pixel is a candidate
(dt <= xydist) and shares a sigma value with an edge pixel within xydist. -/
def exactMark (canny : Grid Bool) (sigmaMap : Grid ℤ) (xydist : ℚ) (i j : ℕ) : Bool :=
  distanceFieldLE canny xydist i j &&
    shares_std_val_within_dist (i, j) (nonzeroIdxs canny)
      (edgeSigmaVals canny sigmaMap) sigmaMap xydist

/-- Embedding of crop_rover from seg.py.  When the edge mask has no true
cell, scipy.spatial.KDTree rejects the empty coordinate list (its data must
be 2-dimensional), so the call raises; this is modelled as none.  Otherwise
the result grid has the shape of the image, carries the image value at every
pixel whose exactMark holds, and zero elsewhere. -/
def crop_rover (image : Grid ℚ) (canny : Grid Bool) (sigmaMap : Grid ℤ)
    (xydist : ℚ) : Option (Grid ℚ) :=
  if (nonzeroIdxs canny).isEmpty then none
  else some <| mkGrid (gridRows image) (gridCols image) fun i j =>
    if exactMark canny sigmaMap xydist i j then gget image 0 i j else 0

/-- Embedding of crop_rover_fast from seg.py: the result grid has the shape
of the image, carries the image value at every pixel within xydist of an
edge pixel, and zero elsewhere. -/
def crop_rover_fast (image : Grid ℚ) (canny : Grid Bool) (xydist : ℚ) : Grid ℚ :=
  mkGrid (gridRows image) (gridCols image) fun i j =>
    if distanceFieldLE canny xydist i j then gget image 0 i j else 0

/-- Sum of all grid entries, the embedding of arr.sum(). -/
def gridSum (g : Grid ℚ) : ℚ := (g.map fun row => row.sum).sum

/-- Number of entries of the grid, the embedding of arr.size. -/
def gridCount (g : Grid α) : ℕ := (g.map List.length).sum

/-- Embedding of img.mean(). -/
def gridMean (g : Grid ℚ) : ℚ := gridSum g / gridCount g

/-- Embedding of the (population) variance img.std() ** 2; the standard
deviation itself is its square root and is only ever used inside comparisons,
which are expressed by squaring. -/
def gridVar (g : Grid ℚ) : ℚ :=
  gridSum (g.map fun row => row.map fun x => (x - gridMean g) ^ 2) / gridCount g

/-- The comparison k * sigma <= x with sigma = sqrt varr >= 0, expressed by
squaring: the k-th bin edge of bins = [0, sigma, 2 sigma, 3 sigma] is <= x. -/
def binEdgeLE (k : ℕ) (varr x : ℚ) : Bool :=
  decide (0 ≤ x ∧ (k : ℚ) ^ 2 * varr ≤ x ^ 2)

/-- Embedding of np.digitize(x, bins) for the nondecreasing edge list
bins = [0, sigma, 2 sigma, 3 sigma]: searchsorted with side right, i.e. the
number of bin edges that are <= x. -/
def digitizeAbsDev (x varr : ℚ) : ℕ :=
  ((List.range 4).filter fun k => binEdgeLE k varr x).length

/-- Embedding of the sigma-map construction in seg():
sigmaMap = np.digitize(np.abs(img - img.mean()), [k * img.std() for k in range(4)]). -/
def buildSigmaMap (img : Grid ℚ) : Grid ℤ :=
  img.map fun row => row.map fun v =>
    (digitizeAbsDev |v - gridMean img| (gridVar img) : ℤ)

/-- Embedding of edges.sum() on a boolean mask: the number of true cells. -/
def edgeCount (canny : Grid Bool) : ℕ :=
  (canny.map fun row => (row.filter fun b => b).length).sum

/-- Embedding of np.zeros_like(img). -/
def zerosLike (img : Grid ℚ) : Grid ℚ := img.map fun row => row.map fun _ => 0

/-- Embedding of the classification portion of seg(): the gate
(debug or edges.sum() > rover_npx_thresh) decides whether a region
classifier runs at all; match_edges selects crop_rover over crop_rover_fast;
otherwise the rover image is all-zero. -/
def segRover (debug match_edges : Bool) (image : Grid ℚ) (canny : Grid Bool)
    (sigmaMap : Grid ℤ) (seg_npx : ℚ) (rover_npx_thresh : ℕ) : Option (Grid ℚ) :=
  if debug || decide (edgeCount canny > rover_npx_thresh) then
    if match_edges then crop_rover image canny sigmaMap seg_npx
    else some (crop_rover_fast image canny seg_npx)
  else some (zerosLike image)

/-- Abstract state of a filesystem path, for embedding util.py. -/
inductive PathState : Type
  | dir : PathState
  | file : PathState
  | absent : PathState
deriving DecidableEq

/-- Embedding of os.path.isdir on the path state. -/
def isdir : PathState → Bool
  | .dir => true
  | _ => false

/-- Embedding of os.path.exists on the path state. -/
def pathExists : PathState → Bool
  | .absent => false
  | _ => true

/-- Embedding of make_dir_if_not_exist from util.py: assert that the path is
a directory or does not exist (first component false = AssertionError, path
untouched); then create the directory when the path does not exist.  The
second component is the state of the path after the call. -/
def make_dir_if_not_exist (s : PathState) : Bool × PathState :=
  if !(isdir s || !(pathExists s)) then (false, s)
  else if !(pathExists s) then (true, PathState.dir)
  else (true, s)

/-- The 3 x 5 image of the fast-strategy example scenario. -/
def exImage : Grid ℚ := [[1, 2, 3, 4, 5], [6, 7, 8, 9, 10], [11, 12, 13, 14, 15]]

/-- The edge mask of the fast-strategy example scenario. -/
def exCanny : Grid Bool :=
  [[false, false, false, true, false],
   [false, false, true, false, false],
   [false, true, false, false, false]]

/-- Image for the empty-edge-mask scenario. -/
def emptyEdgeImage : Grid ℚ := [[1, 2], [3, 4]]

/-- Edge mask with no true cell. -/
def emptyEdgeMask : Grid Bool := [[false, false], [false, false]]

/-- One-pixel image for the orchestrator gate boundary scenario. -/
def gateImage : Grid ℚ := [[1]]

/-- One-pixel edge mask whose edge count equals the threshold 1. -/
def gateMask : Grid Bool := [[true]]

/-- Image whose largest absolute deviation reaches the last bin edge:
mean 1/10, variance 9/100, and the deviation of the final pixel is
9/10 = 3 * sigma, so digitize puts it past every edge. -/
def outlierImage : Grid ℚ := [[0, 0, 0, 0, 0, 0, 0, 0, 0, 1]]

section Lemmas

/-- getD inside the bounds is getElem. -/
theorem getD_of_lt (l : List α) (d : α) (n : ℕ) (h : n < l.length) :
    l.getD n d = l[n] := by
  rw [List.getD_eq_getElem?_getD, List.getElem?_eq_getElem h]
  rfl

/-- Reading an entry of mkGrid inside its bounds gives the entry function. -/
theorem gget_mkGrid (rows cols : ℕ) (f : ℕ → ℕ → α) (d : α) (i j : ℕ)
    (hi : i < rows) (hj : j < cols) : gget (mkGrid rows cols f) d i j = f i j := by
  unfold gget mkGrid
  have hi2 : i < ((List.range rows).map fun i => (List.range cols).map fun j => f i j).length := by
    simpa using hi
  rw [getD_of_lt _ _ _ hi2]
  simp only [List.getElem_map, List.getElem_range]
  have hj2 : j < ((List.range cols).map fun j => f i j).length := by
    simpa using hj
  rw [getD_of_lt _ _ _ hj2]
  simp only [List.getElem_map, List.getElem_range]

/-- The row lengths of mkGrid. -/
theorem rowLens_mkGrid (rows cols : ℕ) (f : ℕ → ℕ → α) :
    rowLens (mkGrid rows cols f) = List.replicate rows cols := by
  unfold rowLens mkGrid
  rw [List.map_map]
  refine List.eq_replicate_iff.mpr ⟨by simp, ?_⟩
  intro x hx
  obtain ⟨i, _, rfl⟩ := List.mem_map.mp hx
  simp

/-- A rectangular grid has constant row lengths. -/
theorem rect_rowLens {g : Grid α} (h : Rect g) :
    rowLens g = List.replicate g.length (gridCols g) := by
  refine List.eq_replicate_iff.mpr ⟨by simp [rowLens], ?_⟩
  intro x hx
  obtain ⟨row, hrow, rfl⟩ := List.mem_map.mp hx
  exact h row hrow

/-- Membership in the nonzero-coordinate list is exactly a true cell of the
mask (out-of-range reads default to false). -/
theorem mem_nonzeroIdxs {canny : Grid Bool} {i j : ℕ} :
    (i, j) ∈ nonzeroIdxs canny ↔ gget canny false i j = true := by
  unfold nonzeroIdxs gget
  constructor
  · intro h
    obtain ⟨a, _, hmem⟩ := List.mem_flatMap.mp h
    obtain ⟨b, hb, heq⟩ := List.mem_map.mp hmem
    obtain ⟨rfl, rfl⟩ := Prod.mk.injEq .. ▸ heq
    exact (List.mem_filter.mp hb).2
  · intro h
    have hi : i < canny.length := by
      by_contra hi
      rw [List.getD_eq_default _ _ (le_of_not_lt hi)] at h
      simp at h
    have hj : j < (canny.getD i []).length := by
      by_contra hj
      rw [List.getD_eq_default _ _ (le_of_not_lt hj)] at h
      exact Bool.false_ne_true h
    refine List.mem_flatMap.mpr ⟨i, List.mem_range.mpr hi, ?_⟩
    exact List.mem_map.mpr ⟨j, List.mem_filter.mpr ⟨List.mem_range.mpr hj, h⟩, rfl⟩

/-- distanceFieldLE unpacked: within r of some edge pixel. -/
theorem distanceFieldLE_iff {canny : Grid Bool} {r : ℚ} {i j : ℕ} :
    distanceFieldLE canny r i j = true ↔
      ∃ e ∈ nonzeroIdxs canny, 0 ≤ r ∧ sqDistQ (i, j) e ≤ r ^ 2 := by
  simp only [distanceFieldLE, List.any_eq_true, distLE, decide_eq_true_eq]

/-- Any point is within a nonnegative radius of itself. -/
theorem distLE_self (p : ℕ × ℕ) {r : ℚ} (hr : 0 ≤ r) : distLE p p r = true := by
  simp only [distLE, decide_eq_true_eq, sqDistQ, sub_self]
  refine ⟨hr, ?_⟩
  norm_num
  positivity

/-- np.isclose holds reflexively. -/
theorem isclose_self (a : ℚ) : isclose a a = true := by
  simp only [isclose, decide_eq_true_eq, sub_self, abs_zero]
  positivity

/-- Zipping a list with its own map pairs each element with its value. -/
theorem zip_self_map (l : List α) (f : α → β) :
    l.zip (l.map f) = l.map fun x => (x, f x) := by
  induction l with
  | nil => rfl
  | cons a l ih => simp [ih]

/-- Entries of a bucket-bounded sigma map lie in [0, 4], the default 0
included. -/
theorem gget_bounds {sigmaMap : Grid ℤ}
    (h : ∀ row ∈ sigmaMap, ∀ v ∈ row, 0 ≤ v ∧ v ≤ 4) (i j : ℕ) :
    0 ≤ gget sigmaMap 0 i j ∧ gget sigmaMap 0 i j ≤ 4 := by
  unfold gget
  by_cases hi : i < sigmaMap.length
  · rw [getD_of_lt _ _ _ hi]
    by_cases hj : j < sigmaMap[i].length
    · rw [getD_of_lt _ _ _ hj]
      exact h _ (List.getElem_mem hi) _ (List.getElem_mem hj)
    · rw [List.getD_eq_default _ _ (le_of_not_lt hj)]
      norm_num
  · rw [List.getD_eq_default _ _ (le_of_not_lt hi)]
    norm_num

/-- For integer arguments in the bucket range, np.isclose with atol = 1/10
and rtol = 1/100000 coincides with the absolute comparison of the spec. -/
theorem isclose_int_iff {a b : ℤ} (hb0 : 0 ≤ b) (hb4 : b ≤ 4) :
    isclose (a : ℚ) (b : ℚ) = true ↔ |(a : ℚ) - (b : ℚ)| ≤ 1 / 10 := by
  simp only [isclose, decide_eq_true_eq]
  constructor
  · intro h
    have hb : |(b : ℚ)| ≤ 4 := by
      rw [abs_of_nonneg (by exact_mod_cast hb0)]
      exact_mod_cast hb4
    have h1 : |(a : ℚ) - b| < 1 := by linarith
    have h2 : a = b := by
      have h3 : |((a - b : ℤ) : ℚ)| < 1 := by push_cast; exact h1
      rw [← Int.cast_abs] at h3
      have h4 : |a - b| < 1 := by exact_mod_cast h3
      rw [abs_lt] at h4
      omega
    subst h2
    simp
  · intro h
    have h0 : (0 : ℚ) ≤ |(b : ℚ)| / 100000 := by positivity
    linarith

end Lemmas

/-- C1: for every image, edge mask, sigma map and radius, a pixel marked as
rover by the exact strategy (the per-pixel decision of crop_rover) is also
marked by the fast strategy at the same radius: it passes the distance-field
test, and crop_rover_fast keeps the image value there. -/
theorem C1_exact_mask_subset_fast_mask (image : Grid ℚ) (canny : Grid Bool)
    (sigmaMap : Grid ℤ) (r : ℚ) (i j : ℕ)
    (hi : i < gridRows image) (hj : j < gridCols image)
    (h : exactMark canny sigmaMap r i j = true) :
    distanceFieldLE canny r i j = true ∧
    gget (crop_rover_fast image canny r) 0 i j = gget image 0 i j := by
  have hd : distanceFieldLE canny r i j = true := by
    unfold exactMark at h
    rw [Bool.and_eq_true] at h
    exact h.1
  refine ⟨hd, ?_⟩
  unfold crop_rover_fast
  rw [gget_mkGrid _ _ _ _ _ _ hi hj, if_pos hd]

/-- Witness for C1 on a one-pixel image whose only pixel is an edge. -/
theorem C1_witness :
    distanceFieldLE [[true]] 0 0 0 = true ∧
    gget (crop_rover_fast [[(5 : ℚ)]] [[true]] 0) 0 0 0 =
      gget ([[(5 : ℚ)]] : Grid ℚ) 0 0 0 :=
  C1_exact_mask_subset_fast_mask [[5]] [[true]] [[1]] 0 0 0
    (by decide) (by decide) (by decide)

/-- C2: for bucket-valued sigma maps, a candidate pixel (one passing the
distance-field prefilter) is marked by the exact strategy iff some edge
pixel within xydist carries a sigma value within absolute tolerance 1/10 of
the sigma value at the pixel, and the grid crop_rover returns carries the
image value at marked pixels and zero at unmarked ones. -/
theorem C2_exact_strategy_marking (image : Grid ℚ) (canny : Grid Bool)
    (sigmaMap : Grid ℤ) (r : ℚ)
    (hs : ∀ row ∈ sigmaMap, ∀ v ∈ row, 0 ≤ v ∧ v ≤ 4)
    (i j : ℕ) (hcand : distanceFieldLE canny r i j = true) :
    (exactMark canny sigmaMap r i j = true ↔
      ∃ e ∈ nonzeroIdxs canny, distLE e (i, j) r = true ∧
        |((gget sigmaMap 0 e.1 e.2 : ℤ) : ℚ) - ((gget sigmaMap 0 i j : ℤ) : ℚ)| ≤ 1 / 10) ∧
    ∀ res, crop_rover image canny sigmaMap r = some res →
      ∀ a b : ℕ, a < gridRows image → b < gridCols image →
        gget res 0 a b =
          if exactMark canny sigmaMap r a b = true then gget image 0 a b else 0 := by
  constructor
  · unfold exactMark
    rw [hcand, Bool.true_and]
    unfold shares_std_val_within_dist edgeSigmaVals
    rw [zip_self_map, List.any_eq_true]
    constructor
    · rintro ⟨e, he, hpair⟩
      rw [List.mem_map] at he
      obtain ⟨e0, he0, rfl⟩ := he
      rw [Bool.and_eq_true] at hpair
      refine ⟨e0, he0, hpair.1, ?_⟩
      have hb := gget_bounds hs i j
      exact (isclose_int_iff hb.1 hb.2).mp hpair.2
    · rintro ⟨e, he, hdist, habs⟩
      refine ⟨(e, gget sigmaMap 0 e.1 e.2), List.mem_map.mpr ⟨e, he, rfl⟩, ?_⟩
      rw [Bool.and_eq_true]
      have hb := gget_bounds hs i j
      exact ⟨hdist, (isclose_int_iff hb.1 hb.2).mpr habs⟩
  · intro res hres a b ha hb
    unfold crop_rover at hres
    by_cases hne : (nonzeroIdxs canny).isEmpty
    · rw [if_pos hne] at hres
      exact absurd hres (by simp)
    · rw [if_neg hne, Option.some.injEq] at hres
      subst hres
      rw [gget_mkGrid _ _ _ _ _ _ ha hb]

/-- Witness for C2 on a one-pixel image whose only pixel is an edge. -/
theorem C2_witness :
    (exactMark [[true]] [[(1 : ℤ)]] 0 0 0 = true ↔
      ∃ e ∈ nonzeroIdxs [[true]], distLE e (0, 0) 0 = true ∧
        |((gget ([[(1 : ℤ)]] : Grid ℤ) 0 e.1 e.2 : ℤ) : ℚ) -
          ((gget ([[(1 : ℤ)]] : Grid ℤ) 0 0 0 : ℤ) : ℚ)| ≤ 1 / 10) ∧
    ∀ res, crop_rover [[(5 : ℚ)]] [[true]] [[(1 : ℤ)]] 0 = some res →
      ∀ a b : ℕ, a < gridRows [[(5 : ℚ)]] → b < gridCols [[(5 : ℚ)]] →
        gget res 0 a b =
          if exactMark [[true]] [[(1 : ℤ)]] 0 a b = true
          then gget ([[(5 : ℚ)]] : Grid ℚ) 0 a b else 0 :=
  C2_exact_strategy_marking [[5]] [[true]] [[1]] 0 (by decide) 0 0 (by decide)

/-- C3: crop_rover_fast keeps the image value exactly at the pixels within
xydist of some edge pixel and is zero at every other pixel; on the 3 x 5
example the stated results hold for xydist 1, 0 and 100. -/
theorem C3_fast_strategy_characterization :
    (∀ (image : Grid ℚ) (canny : Grid Bool) (r : ℚ) (i j : ℕ),
        i < gridRows image → j < gridCols image →
        gget (crop_rover_fast image canny r) 0 i j =
          if ∃ e ∈ nonzeroIdxs canny, 0 ≤ r ∧ sqDistQ (i, j) e ≤ r ^ 2
          then gget image 0 i j else 0) ∧
    crop_rover_fast exImage exCanny 1 =
      [[0, 0, 3, 4, 5], [0, 7, 8, 9, 0], [11, 12, 13, 0, 0]] ∧
    crop_rover_fast exImage exCanny 0 =
      [[0, 0, 0, 4, 0], [0, 0, 8, 0, 0], [0, 12, 0, 0, 0]] ∧
    crop_rover_fast exImage exCanny 100 = exImage := by
  refine ⟨?_, by decide, by decide, by decide⟩
  intro image canny r i j hi hj
  unfold crop_rover_fast
  rw [gget_mkGrid _ _ _ _ _ _ hi hj]
  by_cases h : distanceFieldLE canny r i j = true
  · rw [if_pos h, if_pos (distanceFieldLE_iff.mp h)]
  · rw [if_neg h, if_neg fun hc => h (distanceFieldLE_iff.mpr hc)]

/-- Witness for C3 at pixel (0, 2) of the example with radius 1. -/
theorem C3_witness :
    gget (crop_rover_fast exImage exCanny 1) 0 0 2 =
      if ∃ e ∈ nonzeroIdxs exCanny, 0 ≤ (1 : ℚ) ∧ sqDistQ (0, 2) e ≤ 1 ^ 2
      then gget exImage 0 0 2 else 0 :=
  C3_fast_strategy_characterization.1 exImage exCanny 1 0 2 (by decide) (by decide)

/-- C4: the fast-strategy mask is monotone in the radius: a pixel within r1
of an edge pixel is also within any r2 >= r1 of one, and crop_rover_fast at
the larger radius keeps the image value there. -/
theorem C4_fast_mask_monotone_in_radius (image : Grid ℚ) (canny : Grid Bool)
    (r1 r2 : ℚ) (hr : r1 ≤ r2) (i j : ℕ)
    (h : distanceFieldLE canny r1 i j = true) :
    distanceFieldLE canny r2 i j = true ∧
    (i < gridRows image → j < gridCols image →
      gget (crop_rover_fast image canny r2) 0 i j = gget image 0 i j) := by
  have h2 : distanceFieldLE canny r2 i j = true := by
    rw [distanceFieldLE_iff] at h ⊢
    obtain ⟨e, he, hr1, hsq⟩ := h
    exact ⟨e, he, le_trans hr1 hr, le_trans hsq (pow_le_pow_left₀ hr1 hr 2)⟩
  refine ⟨h2, fun hi hj => ?_⟩
  unfold crop_rover_fast
  rw [gget_mkGrid _ _ _ _ _ _ hi hj, if_pos h2]

/-- Witness for C4 with radii 0 and 1 on a one-pixel edge image. -/
theorem C4_witness :
    distanceFieldLE [[true]] 1 0 0 = true ∧
    (0 < gridRows [[(5 : ℚ)]] → 0 < gridCols [[(5 : ℚ)]] →
      gget (crop_rover_fast [[(5 : ℚ)]] [[true]] 1) 0 0 0 =
        gget ([[(5 : ℚ)]] : Grid ℚ) 0 0 0) :=
  C4_fast_mask_monotone_in_radius [[5]] [[true]] 0 1 (by norm_num) 0 0 (by decide)

/-- C5: the claim says crop_rover returns an all-zero image when the edge
mask has no true cell; the code instead builds a scipy KDTree over the empty
edge-point list, which raises, so no grid is returned at all. -/
theorem C5_crop_rover_empty_mask_raises :
    crop_rover emptyEdgeImage emptyEdgeMask [[0, 0], [0, 0]] 50 = none ∧
    crop_rover emptyEdgeImage emptyEdgeMask [[0, 0], [0, 0]] 50 ≠
      some (zerosLike emptyEdgeImage) := by decide

/-- C6 counterexample: on the outlier image the sigma map holds the value 4,
which is outside the claimed value set {0, 1, 2, 3}. -/
theorem C6_counterexample_bucket_four :
    gget (buildSigmaMap outlierImage) 0 0 9 = 4 ∧
    (4 : ℤ) ∉ ([0, 1, 2, 3] : List ℤ) := by decide

/-- C6 (amended): the sigma-map builder assigns each pixel the digitize
bucket index of its absolute deviation from the mean under the bin edges
0, sigma, 2 sigma, 3 sigma, and every value lies in {1, 2, 3, 4}: the
absolute deviation is never below the first edge 0, so bucket 0 cannot
occur, and deviations of at least 3 sigma give bucket 4. -/
theorem C6_sigma_map_buckets (img : Grid ℚ) (i j : ℕ)
    (hi : i < img.length) (hj : j < (img.getD i []).length) :
    gget (buildSigmaMap img) 0 i j =
      (digitizeAbsDev |gget img 0 i j - gridMean img| (gridVar img) : ℤ) ∧
    1 ≤ gget (buildSigmaMap img) 0 i j ∧ gget (buildSigmaMap img) 0 i j ≤ 4 := by
  have hval : gget (buildSigmaMap img) 0 i j =
      (digitizeAbsDev |gget img 0 i j - gridMean img| (gridVar img) : ℤ) := by
    unfold buildSigmaMap gget
    have hi2 : i < (img.map fun row => row.map fun v =>
        (digitizeAbsDev |v - gridMean img| (gridVar img) : ℤ)).length := by
      simpa using hi
    rw [getD_of_lt _ _ _ hi2, List.getElem_map]
    have hj2 : j < (img[i].map fun v =>
        (digitizeAbsDev |v - gridMean img| (gridVar img) : ℤ)).length := by
      simpa using hj.trans_eq (by rw [getD_of_lt _ _ _ hi])
    rw [getD_of_lt _ _ _ hj2, List.getElem_map, getD_of_lt _ _ _ hi,
      getD_of_lt _ _ _ (by rwa [← getD_of_lt _ [] _ hi])]
  refine ⟨hval, ?_, ?_⟩
  · rw [hval]
    have h1 : 0 ∈ (List.range 4).filter fun k =>
        binEdgeLE k (gridVar img) |gget img 0 i j - gridMean img| := by
      refine List.mem_filter.mpr ⟨by decide, ?_⟩
      simp only [binEdgeLE, decide_eq_true_eq]
      constructor
      · exact abs_nonneg _
      · norm_num
        positivity
    have h2 : 0 < ((List.range 4).filter fun k =>
        binEdgeLE k (gridVar img) |gget img 0 i j - gridMean img|).length :=
      List.length_pos.mpr (List.ne_nil_of_mem h1)
    unfold digitizeAbsDev
    exact_mod_cast h2
  · rw [hval]
    have h3 := List.length_filter_le
      (fun k => binEdgeLE k (gridVar img) |gget img 0 i j - gridMean img|)
      (List.range 4)
    simp only [List.length_range] at h3
    unfold digitizeAbsDev
    exact_mod_cast h3

/-- Witness for C6 (amended) at the single pixel of a constant image. -/
theorem C6_witness :
    gget (buildSigmaMap [[1]]) 0 0 0 =
      (digitizeAbsDev |gget ([[1]] : Grid ℚ) 0 0 0 - gridMean [[1]]|
        (gridVar [[1]]) : ℤ) ∧
    1 ≤ gget (buildSigmaMap [[1]]) 0 0 0 ∧ gget (buildSigmaMap [[1]]) 0 0 0 ≤ 4 :=
  C6_sigma_map_buckets [[1]] 0 0 (by decide) (by decide)

/-- C7: the orchestrator gate diverges from the claim at the boundary: with
debug off and the edge count exactly equal to rover_npx_thresh (so not below
it), seg still skips classification and emits the all-zero image, although
the selected fast classifier would keep the edge pixel. -/
theorem C7_gate_skips_at_threshold :
    edgeCount gateMask = 1 ∧
    segRover false false gateImage gateMask [[1]] 1 1 = some [[0]] ∧
    crop_rover_fast gateImage gateMask 1 = [[1]] := by decide

/-- C8: the sigma map, the distance field and the result of either strategy
all have the numpy shape of their input grid: row count and row lengths are
preserved, nothing is resized or cropped. -/
theorem C8_dimension_preservation (image : Grid ℚ) (canny : Grid Bool)
    (sigmaMap : Grid ℤ) (r : ℚ) (himg : Rect image) :
    rowLens (buildSigmaMap image) = rowLens image ∧
    rowLens (distanceFieldSq canny) = rowLens canny ∧
    rowLens (crop_rover_fast image canny r) = rowLens image ∧
    ∀ res, crop_rover image canny sigmaMap r = some res →
      rowLens res = rowLens image := by
  have hrect : rowLens image = List.replicate (gridRows image) (gridCols image) :=
    rect_rowLens himg
  refine ⟨?_, ?_, ?_, ?_⟩
  · unfold buildSigmaMap rowLens
    rw [List.map_map]
    apply List.map_congr_left
    intro row _
    simp
  · unfold distanceFieldSq rowLens
    rw [List.map_map]
    apply List.ext_getElem
    · simp
    · intro n h1 h2
      simp only [List.length_map, List.length_range] at h1
      simp only [List.getElem_map, List.getElem_range, Function.comp_apply]
      rw [getD_of_lt _ _ _ h1]
      simp
  · rw [hrect]
    unfold crop_rover_fast
    exact rowLens_mkGrid _ _ _
  · intro res hres
    unfold crop_rover at hres
    by_cases hne : (nonzeroIdxs canny).isEmpty
    · rw [if_pos hne] at hres
      exact absurd hres (by simp)
    · rw [if_neg hne, Option.some.injEq] at hres
      subst hres
      rw [hrect]
      exact rowLens_mkGrid _ _ _

/-- Witness for C8 on a one-pixel image and mask. -/
theorem C8_witness :
    rowLens (buildSigmaMap [[1]]) = rowLens ([[1]] : Grid ℚ) ∧
    rowLens (distanceFieldSq [[true]]) = rowLens ([[true]] : Grid Bool) ∧
    rowLens (crop_rover_fast [[1]] [[true]] 1) = rowLens ([[1]] : Grid ℚ) ∧
    ∀ res, crop_rover [[1]] [[true]] [[0]] 1 = some res →
      rowLens res = rowLens ([[1]] : Grid ℚ) :=
  C8_dimension_preservation [[1]] [[true]] [[0]] 1 (by decide)

/-- C9: preparing the output location creates the directory when the path is
absent, fails the assertion and changes nothing when the path exists but is
not a directory, and leaves an existing directory unchanged. -/
theorem C9_make_dir_if_not_exist_behavior :
    make_dir_if_not_exist PathState.absent = (true, PathState.dir) ∧
    make_dir_if_not_exist PathState.file = (false, PathState.file) ∧
    make_dir_if_not_exist PathState.dir = (true, PathState.dir) :=
  ⟨rfl, rfl, rfl⟩

/-- C10: with a nonnegative radius and a nonempty edge set, crop_rover marks
every edge pixel: the pixel is within distance 0 of itself and its sigma
value is np.isclose to itself, so the returned grid carries the image value
at every edge-pixel coordinate. -/
theorem C10_crop_rover_marks_edge_pixels (image : Grid ℚ) (canny : Grid Bool)
    (sigmaMap : Grid ℤ) (r : ℚ) (hr : 0 ≤ r) (i j : ℕ)
    (hedge : gget canny false i j = true)
    (hi : i < gridRows image) (hj : j < gridCols image) :
    exactMark canny sigmaMap r i j = true ∧
    ∃ res, crop_rover image canny sigmaMap r = some res ∧
      gget res 0 i j = gget image 0 i j := by
  have hmem : (i, j) ∈ nonzeroIdxs canny := mem_nonzeroIdxs.mpr hedge
  have hmark : exactMark canny sigmaMap r i j = true := by
    unfold exactMark
    rw [Bool.and_eq_true]
    constructor
    · rw [distanceFieldLE_iff]
      refine ⟨(i, j), hmem, hr, ?_⟩
      simp only [sqDistQ, sub_self]
      norm_num
      positivity
    · unfold shares_std_val_within_dist edgeSigmaVals
      rw [zip_self_map, List.any_eq_true]
      refine ⟨((i, j), gget sigmaMap 0 i j), List.mem_map.mpr ⟨(i, j), hmem, rfl⟩, ?_⟩
      rw [Bool.and_eq_true]
      exact ⟨distLE_self (i, j) hr, isclose_self _⟩
  refine ⟨hmark, ?_⟩
  refine ⟨mkGrid (gridRows image) (gridCols image) fun a b =>
    if exactMark canny sigmaMap r a b then gget image 0 a b else 0, ?_, ?_⟩
  · unfold crop_rover
    have hne : ¬((nonzeroIdxs canny).isEmpty = true) := by
      rw [List.isEmpty_iff]
      exact List.ne_nil_of_mem hmem
    rw [if_neg hne]
  · rw [gget_mkGrid _ _ _ _ _ _ hi hj, if_pos hmark]

/-- Witness for C10 on a one-pixel image whose only pixel is an edge. -/
theorem C10_witness :
    exactMark [[true]] [[(2 : ℤ)]] 0 0 0 = true ∧
    ∃ res, crop_rover [[(5 : ℚ)]] [[true]] [[(2 : ℤ)]] 0 = some res ∧
      gget res 0 0 0 = gget ([[(5 : ℚ)]] : Grid ℚ) 0 0 0 :=
  C10_crop_rover_marks_edge_pixels [[5]] [[true]] [[2]] 0 (by norm_num) 0 0
    (by decide) (by decide) (by decide)

end MRA
